import Mathlib

/-!
# Verification of the browser-watermark invisible watermarking core

Shallow embedding of the TypeScript watermark codec
(`src/core/prng.ts`, `src/core/extract.ts`, `src/core/embed.ts`,
`src/core/block-selection.ts`, `src/core/ecc.ts`, `src/core/dct.ts`,
`src/utils/hash.ts`, `src/index.ts`, `src/io/pdf.ts`) together with
theorems settling the specification claims.

Conventions of the embedding:
* JavaScript 32-bit integer bit operations are modelled on `Nat` with an
  explicit `% 2 ^ 32`; XOR and shifts on values below `2 ^ 32` agree with
  the JS signed/unsigned bit patterns.
* JavaScript `number` results of `%` and `Math.floor` on a zero divisor
  are `NaN`; those index computations are modelled as `Option Nat` with
  `none` for `NaN`, and every comparison against `none` is `false`, which
  is exactly the JS behaviour of comparisons with `NaN`.
* The PRNG output `(state3 >>> 0) / 0xffffffff` is modelled as an exact
  rational; floating-point values that are exactly representable (bits
  0.0 / 1.0, vote averages over small integer sums) are modelled as exact
  rationals or reals.
* The DCT works with `Real.cos`, hence those definitions are
  noncomputable, exactly as the source works with `Math.cos`.
-/

namespace BrowserWatermark

/-! ## JavaScript number helpers -/

/-- JS `x << k` on an 8-bit value placed into a 32-bit word:
`(x << (k % 32)) mod 2^32` (the JS shift count is itself taken mod 32). -/
def jsShl32 (x k : Nat) : Nat := (x <<< (k % 32)) % 2 ^ 32

/-- JS `a % b` on nonnegative integers: `NaN` (modelled `none`) when `b = 0`. -/
def jsMod (a b : Nat) : Option Nat := if b = 0 then none else some (a % b)

/-- JS `Math.floor (a / b)` on nonnegative integers: `NaN`/`Infinity`
(modelled `none`) when `b = 0`. -/
def jsFloorDiv (a b : Nat) : Option Nat := if b = 0 then none else some (a / b)

/-! ## Seeded PRNG (`src/core/prng.ts`)

The constructor loop
`for (let i = 0; i < seed.length; i += 4) { s0 ^= seed[i] << (i % 32); … }`
is modelled by `seedGroupsAux`, which performs one four-byte group per
step (missing bytes read as 0, as `seed[i] ?? 0` does). -/

/-- PRNG state: the four 32-bit words `state0..state3`. -/
structure PrngState where
  s0 : Nat
  s1 : Nat
  s2 : Nat
  s3 : Nat
  deriving Repr, DecidableEq

/-- One iteration of the constructor loop, for loop counter `i = 4 * g`:
`s0 ^= seed[4g] << (4g % 32); s1 ^= seed[4g+1] << ((4g+1) % 32); …`. -/
def seedGroupStep (seed : List Nat) (g : Nat) (s : PrngState) : PrngState :=
  { s0 := s.s0 ^^^ jsShl32 (seed.getD (4 * g) 0) (4 * g)
    s1 := s.s1 ^^^ jsShl32 (seed.getD (4 * g + 1) 0) (4 * g + 1)
    s2 := s.s2 ^^^ jsShl32 (seed.getD (4 * g + 2) 0) (4 * g + 2)
    s3 := s.s3 ^^^ jsShl32 (seed.getD (4 * g + 3) 0) (4 * g + 3) }

/-- The first `n` iterations of the constructor loop. -/
def seedGroupsAux (seed : List Nat) : Nat → PrngState
  | 0 => ⟨0, 0, 0, 0⟩
  | n + 1 => seedGroupStep seed n (seedGroupsAux seed n)

/-- `SeededPRNG` constructor (`src/core/prng.ts` lines 7–31): run the
four-byte loop (`⌈seed.length / 4⌉` iterations), then replace an all-zero
state with the fixed non-zero quadruple. -/
def seedInit (seed : List Nat) : PrngState :=
  let s := seedGroupsAux seed ((seed.length + 3) / 4)
  if s.s0 = 0 ∧ s.s1 = 0 ∧ s.s2 = 0 ∧ s.s3 = 0 then
    ⟨0x12345678, 0x9abcdef0, 0xfedcba98, 0x76543210⟩
  else s

/-- `SeededPRNG.next` state update (`src/core/prng.ts` lines 33–45):
xorshift on four 32-bit words followed by the rotation
`(s0,s1,s2,s3) ← (s1,s2,s3,s0)`. -/
def prngStep (s : PrngState) : PrngState :=
  let t := (s.s1 <<< 11) % 2 ^ 32
  let s0 := s.s0 ^^^ s.s1
  let s1 := s.s1 ^^^ s.s2
  let s2 := s.s2 ^^^ s.s3
  let s3 := s.s3 ^^^ (s.s3 >>> 19) ^^^ s0 ^^^ t
  let s0 := s0 ^^^ ((s0 <<< 11) % 2 ^ 32)
  ⟨s1, s2, s3, s0⟩

/-- `SeededPRNG.next()` (`src/core/prng.ts` line 47): advance the state and
return `(state3 >>> 0) / 0xffffffff` as an exact rational. -/
def prngNext (s : PrngState) : ℚ × PrngState :=
  let s' := prngStep s
  ((s'.s3 : ℚ) / 0xffffffff, s')

/-- `SeededPRNG.nextInt(max) = Math.floor(next() * max)`
(`src/core/prng.ts` lines 50–52). -/
def prngNextInt (s : PrngState) (max : Nat) : Nat × PrngState :=
  let (q, s') := prngNext s
  (⌊q * max⌋.toNat, s')

/-! ## Payload digest bits (`src/utils/hash.ts`) -/

/-- `digestToBits` (`src/utils/hash.ts`): bit `i` is bit `7 - (i % 8)` of
byte `⌊i / 8⌋` of the digest — MSB-first within each byte. -/
def digestToBits (digest : List Nat) (bitCount : Nat) : List Nat :=
  (List.range bitCount).map fun i => (digest.getD (i / 8) 0) >>> (7 - i % 8) &&& 1

/-! ## The seeding described by claim C2

Claim C2 describes the PRNG seeding as acting on the 8-byte digest: byte
`seed[i]` (`0 ≤ i < 8`) is XORed into `s[i mod 4]` left-shifted by
`((i + j) mod 32)` with `j = i mod 4`. -/

/-- The seeding procedure exactly as claim C2 words it, applied to an
8-byte digest (a *claim-side* definition used only to compare against the
source constructor `seedInit`). -/
def claimedSeedInit (digest : List Nat) : PrngState :=
  let s := (List.range 8).foldl
    (fun (s : PrngState) i =>
      let j := i % 4
      let c := jsShl32 (digest.getD i 0) ((i + j) % 32)
      match i % 4 with
      | 0 => { s with s0 := s.s0 ^^^ c }
      | 1 => { s with s1 := s.s1 ^^^ c }
      | 2 => { s with s2 := s.s2 ^^^ c }
      | _ => { s with s3 := s.s3 ^^^ c })
    ⟨0, 0, 0, 0⟩
  if s.s0 = 0 ∧ s.s1 = 0 ∧ s.s2 = 0 ∧ s.s3 = 0 then
    ⟨0x12345678, 0x9abcdef0, 0xfedcba98, 0x76543210⟩
  else s

/-- Per-byte reading of the constructor loop: byte `i` is XORed into
component `i mod 4`, left-shifted by `i mod 32`. `seedBytesAux seed n`
processes bytes `0 … n-1` in order. -/
def seedByteStep (seed : List Nat) (i : Nat) (s : PrngState) : PrngState :=
  let c := jsShl32 (seed.getD i 0) i
  match i % 4 with
  | 0 => { s with s0 := s.s0 ^^^ c }
  | 1 => { s with s1 := s.s1 ^^^ c }
  | 2 => { s with s2 := s.s2 ^^^ c }
  | _ => { s with s3 := s.s3 ^^^ c }

/-- Process the first `n` seed bytes one at a time. -/
def seedBytesAux (seed : List Nat) : Nat → PrngState
  | 0 => ⟨0, 0, 0, 0⟩
  | n + 1 => seedByteStep seed n (seedBytesAux seed n)

/-- The per-byte formulation of the whole constructor: all bytes, then the
all-zero substitution. -/
def seedInitBytes (seed : List Nat) : PrngState :=
  let s := seedBytesAux seed seed.length
  if s.s0 = 0 ∧ s.s1 = 0 ∧ s.s2 = 0 ∧ s.s3 = 0 then
    ⟨0x12345678, 0x9abcdef0, 0xfedcba98, 0x76543210⟩
  else s

/-! ## Block assignments (`src/core/block-selection.ts`) -/

/-- Swap entries `a` and `b` of a list, as the JS destructuring swap
`[indices[i], indices[swapIndex]] = [indices[swapIndex], indices[i]]`. -/
def listSwap (l : List Nat) (a b : Nat) : List Nat :=
  let va := l.getD a 0
  let vb := l.getD b 0
  (l.set a vb).set b va

/-- The Fisher-Yates loop of `createBlockAssignments`
(`src/core/block-selection.ts` lines 110–113): for loop counter
`i = n, n-1, …, 1` swap index `i` with `Math.floor(prng.next() * (i + 1))`.
`fisherYatesAux st l n` runs the loop for counter values `n` down to `1`. -/
def fisherYatesAux (st : PrngState) (l : List Nat) : Nat → List Nat × PrngState
  | 0 => (l, st)
  | i + 1 =>
    let (q, st') := prngNext st
    let swapIndex := (⌊q * (i + 1 + 1 : ℚ)⌋).toNat
    fisherYatesAux st' (listSwap l (i + 1) swapIndex) i

/-- `createBlockAssignments` (`src/core/block-selection.ts` lines 97–119):
`blocksPerBit = max(1, ⌊totalBlocks / encodedLength⌋)`; if
`blocksPerBit * encodedLength > totalBlocks` return no assignment list,
otherwise Fisher-Yates-shuffle `[0 … totalBlocks)` and keep the first
`blocksPerBit * encodedLength` entries. -/
def createBlockAssignments (st : PrngState) (totalBlocks encodedLength : Nat) :
    (Nat × Option (List Nat)) × PrngState :=
  let blocksPerBit := max 1 (totalBlocks / encodedLength)
  let requiredAssignments := blocksPerBit * encodedLength
  if requiredAssignments > totalBlocks then
    ((blocksPerBit, none), st)
  else
    let (indices, st') := fisherYatesAux st (List.range totalBlocks) (totalBlocks - 1)
    ((blocksPerBit, some (indices.take requiredAssignments)), st')

/-! ## Repetition ECC (`src/core/ecc.ts`) -/

/-- `encodeWithRepetition` (`src/core/ecc.ts` lines 5–13): the output has
length `bits.length * 3` and `encoded[i*3+j] = bits[i]`, i.e. entry `k`
is `bits[⌊k/3⌋]`. -/
def encodeWithRepetition (bits : List Nat) : List Nat :=
  (List.range (bits.length * 3)).map fun k => bits.getD (k / 3) 0

/-! ## PRNG consumption schedule shared by embed and extract

`embedWatermark` (`src/core/embed.ts` lines 54–79) and `extractWatermark`
(`src/core/extract.ts` lines 36–52) consume the PRNG identically: first
`createBlockAssignments`, then for each coded bit and each of its
`blocksPerBit` samples one block-index draw (either the next materialized
assignment or `prng.nextInt(totalBlocks)`) followed by
`prng.nextInt(MID_FREQ_COEFFS.length)` with `MID_FREQ_COEFFS.length = 15`. -/

/-- One sample draw: block index (from the assignment list at the running
`assignmentIndex`, or from `prng.nextInt(totalBlocks)`) and then the
coefficient index `prng.nextInt(15)`. Returns the pair, the new
`assignmentIndex` and the new PRNG state. -/
def drawPair (totalBlocks : Nat) (asg : Option (List Nat)) (ai : Nat)
    (st : PrngState) : (Nat × Nat) × Nat × PrngState :=
  match asg with
  | some l =>
    let (c, st') := prngNextInt st 15
    ((l.getD ai 0, c), ai + 1, st')
  | none =>
    let (b, st') := prngNextInt st totalBlocks
    let (c, st'') := prngNextInt st' 15
    ((b, c), ai, st'')

/-- The nested loop `for bitIdx in [0, encodedLength) { for b in
[0, blocksPerBit) { … } }` collecting the drawn
`(block index, coefficient index)` pairs in consumption order. -/
def scheduleLoop (totalBlocks : Nat) (asg : Option (List Nat))
    (encodedLength blocksPerBit : Nat) (st : PrngState) : List (Nat × Nat) :=
  ((List.range encodedLength).foldl
    (fun (a : List (Nat × Nat) × Nat × PrngState) _ =>
      (List.range blocksPerBit).foldl
        (fun (a2 : List (Nat × Nat) × Nat × PrngState) _ =>
          let (p, ai', st') := drawPair totalBlocks asg a2.2.1 a2.2.2
          (a2.1 ++ [p], ai', st'))
        a)
    ([], 0, st)).1

/-- The `(block index, coefficient index)` pairs consumed by
`embedWatermark` for payload bits and image dimensions: the PRNG is seeded
from `payloadBits`, `encodedLength` is the length of
`encodeWithRepetition(payloadBits)`, `totalBlocks = ⌊w/8⌋·⌊h/8⌋`. -/
def embedSchedule (payloadBits : List Nat) (width height : Nat) : List (Nat × Nat) :=
  let blocksX := width / 8
  let blocksY := height / 8
  let totalBlocks := blocksX * blocksY
  let encodedBitsLength := (encodeWithRepetition payloadBits).length
  let st0 := seedInit payloadBits
  let ((blocksPerBit, asg), st1) := createBlockAssignments st0 totalBlocks encodedBitsLength
  scheduleLoop totalBlocks asg encodedBitsLength blocksPerBit st1

/-- The `(block index, coefficient index)` pairs consumed by
`extractWatermark` for the expected payload bits and image dimensions: the
PRNG is seeded from `expectedPayloadBits` and
`encodedLength = expectedPayloadBits.length * 3`. -/
def extractSchedule (expectedPayloadBits : List Nat) (width height : Nat) :
    List (Nat × Nat) :=
  let blocksX := width / 8
  let blocksY := height / 8
  let totalBlocks := blocksX * blocksY
  let encodedLength := expectedPayloadBits.length * 3
  let st0 := seedInit expectedPayloadBits
  let ((blocksPerBit, asg), st1) := createBlockAssignments st0 totalBlocks encodedLength
  scheduleLoop totalBlocks asg encodedLength blocksPerBit st1

/-! ## DCT / IDCT (`src/core/dct.ts`)

The cosine table is `cos((2i+1)·j·π/16)`; `C(0) = 1/√2`, `C(k) = 1`
otherwise. Both transforms are two separable one-dimensional passes. -/

/-- `COS_TABLE[i*8+j] = Math.cos((2i+1)·j·π/16)` (`src/core/dct.ts`
lines 3–12). -/
noncomputable def cosTable (i j : Nat) : ℝ :=
  Real.cos ((2 * i + 1) * j * Real.pi / 16)

/-- `getC(j) = j === 0 ? 1/√2 : 1` (`src/core/dct.ts` lines 21–23). -/
noncomputable def dctC (j : Nat) : ℝ := if j = 0 then 1 / Real.sqrt 2 else 1

/-- One forward pass: `(Σ_t g(t)·cos((2t+1)uπ/16)) · C(u) · 0.5`
(`src/core/dct.ts` lines 29–47, each of the two loops). -/
noncomputable def dctPass (g : Nat → ℝ) (u : Nat) : ℝ :=
  (∑ t ∈ Finset.range 8, g t * cosTable t u) * dctC u * 0.5

/-- One inverse pass: `(Σ_u C(u)·g(u)·cos((2x+1)uπ/16)) · 0.5`
(`src/core/dct.ts` lines 56–74, each of the two loops). -/
noncomputable def idctPass (g : Nat → ℝ) (x : Nat) : ℝ :=
  (∑ u ∈ Finset.range 8, dctC u * g u * cosTable x u) * 0.5

/-- `dct2d` (`src/core/dct.ts` lines 25–50): pass over the first index
(`temp[u,v] = 0.5·C(u)·Σ_x block[x,v]·cos((2x+1)uπ/16)`), then over the
second (`result[u,v] = 0.5·C(v)·Σ_y temp[u,y]·cos((2y+1)vπ/16)`). The
flattened array `block[x*8+v]` is modelled as the function value
`block x v`. -/
noncomputable def dct2d (block : Nat → Nat → ℝ) : Nat → Nat → ℝ :=
  let temp := fun u v => dctPass (fun x => block x v) u
  fun u v => dctPass (temp u) v

/-- `idct2d` (`src/core/dct.ts` lines 52–77): inverse pass over the first
index, then over the second. -/
noncomputable def idct2d (block : Nat → Nat → ℝ) : Nat → Nat → ℝ :=
  let temp := fun x y => idctPass (fun u => block u y) x
  fun x y => idctPass (temp x) y

/-! ## Majority-vote decoder (`src/core/ecc.ts` lines 15–42)

`decodeWithMajorityVote` receives float soft values; they are modelled as
reals. -/

/-- Per-bit average `avg = sum / REPETITION_FACTOR` of
`decodeWithMajorityVote`: `sum` adds `noisyBits[i*3+j]` for `j < 3`
whenever the index is in range. -/
noncomputable def decodeAvg (noisyBits : List ℝ) (i : Nat) : ℝ :=
  (((List.range 3).map fun j =>
    if i * 3 + j < noisyBits.length then noisyBits.getD (i * 3 + j) 0 else 0).sum) / 3

/-- `decodeWithMajorityVote` (`src/core/ecc.ts` lines 15–42): hard bit `i`
is `1` iff `avg > 0.5`; per-bit confidence is `|avg - 0.5| * 2`; the
overall confidence is the total divided by `bitCount`. -/
noncomputable def decodeWithMajorityVote (noisyBits : List ℝ) (bitCount : Nat) :
    List Nat × ℝ :=
  ((List.range bitCount).map fun i => if 1 / 2 < decodeAvg noisyBits i then 1 else 0,
   (((List.range bitCount).map fun i => |decodeAvg noisyBits i - 1 / 2| * 2).sum) /
     bitCount)

/-! ## The per-coefficient embed write (`src/core/embed.ts` lines 111–122)

For one block and one coefficient position carrying the sample bits
`bits`, the code computes
`majorityBit = bits.reduce((a,b) => a+b, 0) > bits.length / 2 ? 1 : 0`
(the comparison is JS real division, modelled on `ℚ`) and writes
`±(|c| + EMBEDDING_STRENGTH)`. `EMBEDDING_STRENGTH` comes from
`src/core/constants.ts`, which is not under `src/`; the spec describes it
only as a positive magnitude floor, so the strength is kept as a
parameter. -/

/-- `bits.reduce((a, b) => a + b, 0)`. -/
def sumBits (bits : List Nat) : Nat := bits.foldl (· + ·) 0

/-- The majority bit of one coefficient position:
`sum > bits.length / 2 ? 1 : 0` with JS real division on the right. -/
def majorityBit (bits : List Nat) : Nat :=
  if (bits.length : ℚ) / 2 < (sumBits bits : ℚ) then 1 else 0

/-- The value written over the DCT coefficient `c`
(`src/core/embed.ts` lines 117–121): `+(|c| + S)` when the majority bit is
1, `-(|c| + S)` otherwise. -/
def embedCoeffWrite (strength : ℝ) (bits : List Nat) (c : ℝ) : ℝ :=
  if majorityBit bits = 1 then |c| + strength else -(|c| + strength)

/-! ## Verify decision logic (`src/index.ts` lines 176–216)

`verify` decodes the image, hashes the payload, runs `extractWatermark`,
packs the recovered bits and compares hex strings. The decision is
modelled as a function of the extractor output and the expected digest;
image decoding and SHA-256 stay behind those parameters. -/

/-- Modelled from the spec: `MATCH_THRESHOLD` from `src/core/constants.ts`
(the constants module is not under `src/`); the spec fixes the default
verification threshold at 0.85. -/
noncomputable def MATCH_THRESHOLD : ℝ := 0.85

/-- Digit value to lowercase hex character, as JS
`Number.prototype.toString(16)` emits for one digit. -/
def hexChar (n : Nat) : Char := Nat.digitChar n

/-- `b.toString(16).padStart(2, '0')` for a byte `b < 256`: exactly two
hex characters. -/
def byteToHexChars (b : Nat) : List Char := [hexChar (b / 16), hexChar (b % 16)]

/-- `arrayBufferToHex` (`src/index.ts` lines 56–60): concatenation of the
two-character hex of every byte. -/
def arrayBufferToHex (bytes : List Nat) : List Char :=
  (bytes.map byteToHexChars).flatten

/-- The packing loop of `verify` (`src/index.ts` lines 197–204): bit `i`
is ORed into byte `⌊i/8⌋` at bit position `7 - (i % 8)` when it is
truthy; grouped per output byte `j` with `i = 8*j + k`. -/
def packRecoveredBits (bits : List Nat) : List Nat :=
  (List.range 8).map fun j =>
    (List.range 8).foldl
      (fun acc k => if bits.getD (8 * j + k) 0 ≠ 0 then acc ||| (1 <<< (7 - k)) else acc)
      0

/-- The match predicate of `verify` (`src/index.ts` lines 189–210):
`confidence >= threshold && expectedDigestHex === recoveredDigestHex`,
with `threshold = options?.threshold ?? MATCH_THRESHOLD`,
`expectedDigestHex` the hex of the first `⌈64/8⌉ = 8` digest bytes and
`recoveredDigestHex` the hex of the packed recovered bits. -/
noncomputable def verifyIsMatch (recoveredBits : List Nat) (confidence : ℝ)
    (expectedDigest : List Nat) (thresholdOpt : Option ℝ) : Prop :=
  let threshold := thresholdOpt.getD MATCH_THRESHOLD
  threshold ≤ confidence ∧
    arrayBufferToHex (expectedDigest.take 8) =
      arrayBufferToHex (packRecoveredBits recoveredBits)

/-! ## Pixel buffers and the full extractor (`src/core/extract.ts`) -/

/-- A decoded image: row-major RGBA bytes. `data` gives the byte at a flat
index; the loops of the codec only read indices below `4·width·height`. -/
structure ImageData where
  width : Nat
  height : Nat
  data : Nat → Nat

/-- The fixed mid-frequency coefficient table `MID_FREQ_COEFFS`
(`src/core/extract.ts` lines 7–10 and `src/core/embed.ts` lines 7–10). -/
def MID_FREQ_COEFFS : List (Nat × Nat) :=
  [(1, 2), (2, 1), (2, 2), (3, 1), (1, 3), (3, 2), (2, 3), (3, 3),
   (4, 1), (1, 4), (4, 2), (2, 4), (4, 3), (3, 4), (4, 4)]

/-- `extractLuminance` (`src/core/extract.ts` lines 12–21):
`Y = 0.299·R + 0.587·G + 0.114·B` per pixel. -/
noncomputable def extractLuminance (data : Nat → Nat) (i : Nat) : ℝ :=
  0.299 * data (i * 4) + 0.587 * data (i * 4 + 1) + 0.114 * data (i * 4 + 2)

/-- The 8×8 block copy of `extractWatermark` (`src/core/extract.ts` lines
54–66): `bx = blockIdx % blocksX`, `by = ⌊blockIdx / blocksX⌋` (JS `NaN`
when `blocksX = 0`, modelled as `none`, making every source-bounds
comparison false, so the block stays all zero), and pixels outside the
image read as 0. -/
noncomputable def blockPixels (y : Nat → ℝ) (w h blocksX : Nat)
    (blockIdx : Nat) : Nat → Nat → ℝ :=
  fun blockY blockX =>
    match jsMod blockIdx blocksX, jsFloorDiv blockIdx blocksX with
    | some bx, some byv =>
      if bx * 8 + blockX < w ∧ byv * 8 + blockY < h then
        y ((byv * 8 + blockY) * w + (bx * 8 + blockX))
      else 0
    | _, _ => 0

/-- One extraction sample (`src/core/extract.ts` lines 47–74): draw the
block and coefficient indices, copy the block, forward-DCT, and vote
`+1` when the selected coefficient is positive, `-1` otherwise. The
coefficient pair is `MID_FREQ_COEFFS[coeffIdx]` (default `(0,0)` models
the out-of-table read that only a `next() = 1.0` draw could produce). -/
noncomputable def extractSampleVote (y : Nat → ℝ) (w h blocksX totalBlocks : Nat)
    (asg : Option (List Nat)) (ai : Nat) (st : PrngState) : ℝ × Nat × PrngState :=
  let r := drawPair totalBlocks asg ai st
  let coeff := MID_FREQ_COEFFS.getD r.1.2 (0, 0)
  let block := blockPixels y w h blocksX r.1.1
  let coeffValue := dct2d block coeff.1 coeff.2
  (if 0 < coeffValue then 1 else -1, r.2.1, r.2.2)

/-- The inner `for b in [0, blocksPerBit)` loop of one coded bit: collect
the sample votes in order, threading `assignmentIndex` and the PRNG. -/
noncomputable def extractVotes (y : Nat → ℝ) (w h blocksX totalBlocks : Nat)
    (asg : Option (List Nat)) (blocksPerBit : Nat) (ai : Nat) (st : PrngState) :
    List ℝ × Nat × PrngState :=
  (List.range blocksPerBit).foldl
    (fun (a : List ℝ × Nat × PrngState) _ =>
      let r := extractSampleVote y w h blocksX totalBlocks asg a.2.1 a.2.2
      (a.1 ++ [r.1], r.2.1, r.2.2))
    ([], ai, st)

/-- The outer `for bitIdx in [0, encodedLength)` loop: per coded bit the
soft value is `(avgVote + 1) / 2` with `avgVote = votes.sum / votes.length`
(`src/core/extract.ts` lines 44–81). -/
noncomputable def extractNoisy (y : Nat → ℝ) (w h blocksX totalBlocks : Nat)
    (asg : Option (List Nat)) (encodedLength blocksPerBit : Nat)
    (st : PrngState) : List ℝ :=
  ((List.range encodedLength).foldl
    (fun (a : List ℝ × Nat × PrngState) _ =>
      let r := extractVotes y w h blocksX totalBlocks asg blocksPerBit a.2.1 a.2.2
      (a.1 ++ [(r.1.sum / r.1.length + 1) / 2], r.2.1, r.2.2))
    ([], 0, st)).1

/-- `extractWatermark` (`src/core/extract.ts` lines 23–89): luminance,
PRNG seeded from the expected payload bits, block assignments, one soft
value per coded bit, then the majority-vote decoder. -/
noncomputable def extractWatermark (img : ImageData)
    (expectedPayloadBits : List Nat) : List Nat × ℝ :=
  let y := extractLuminance img.data
  let blocksX := img.width / 8
  let blocksY := img.height / 8
  let totalBlocks := blocksX * blocksY
  let encodedLength := expectedPayloadBits.length * 3
  let st0 := seedInit expectedPayloadBits
  let r := createBlockAssignments st0 totalBlocks encodedLength
  let noisy := extractNoisy y img.width img.height blocksX totalBlocks
    r.1.2 encodedLength r.1.1 r.2
  decodeWithMajorityVote noisy expectedPayloadBits.length

/-- Counterexample image for claim C9: 16×4 pixels, RGB of pixel (0,0) is
255 (so its luminance is 255), every other pixel black, all alphas 255. -/
def imgCE : ImageData :=
  ⟨16, 4, fun idx => if idx < 3 then 255 else if idx % 4 = 3 then 255 else 0⟩

/-! ## The full embedder (`src/core/embed.ts`)

`EMBEDDING_STRENGTH` lives in `src/core/constants.ts`, which is not under
`src/`; the spec describes it only as a positive magnitude floor, so it is
passed as the `strength` parameter. -/

/-- The per-block sample bucket (`src/core/embed.ts` lines 63–79): the
`k`-th drawn sample of the consumption schedule belongs to coded bit
`⌊k / blocksPerBit⌋`; each bucket keeps, in draw order, the coefficient
pair and the coded bit of every sample that hit the block. -/
def blockVotes (sched : List (Nat × Nat)) (encodedBits : List Nat)
    (blocksPerBit : Nat) (blockIdx : Nat) : List ((Nat × Nat) × Nat) :=
  ((List.range sched.length).map fun k =>
    ((sched.getD k (0, 0)).1,
      (MID_FREQ_COEFFS.getD (sched.getD k (0, 0)).2 (0, 0),
        encodedBits.getD (k / blocksPerBit) 0))).filterMap
    fun s => if s.1 = blockIdx then some s.2 else none

/-- Processing of one 8×8 block at embed (`src/core/embed.ts` lines
83–136): copy the block from the *original* luminance, forward-DCT, for
every coefficient position hit by at least one sample overwrite the
coefficient with `±(|c| + strength)` by majority vote, inverse-DCT, and
write the result back over the pixels of this block. -/
noncomputable def embedProcessBlock (strength : ℝ) (y : Nat → ℝ)
    (w h blocksX : Nat) (votes : Nat → List ((Nat × Nat) × Nat))
    (cur : Nat → ℝ) (bx byv : Nat) : Nat → ℝ :=
  let blockIdx := byv * blocksX + bx
  let block : Nat → Nat → ℝ := fun blockY blockX =>
    if bx * 8 + blockX < w ∧ byv * 8 + blockY < h then
      y ((byv * 8 + blockY) * w + (bx * 8 + blockX))
    else 0
  let dctBlock := dct2d block
  let modified : Nat → Nat → ℝ := fun u v =>
    let bitsHere := ((votes blockIdx).filter fun s => s.1 = (u, v)).map
      fun s => s.2
    if bitsHere ≠ [] then
      if majorityBit bitsHere = 1 then |dctBlock u v| + strength
      else -(|dctBlock u v| + strength)
    else dctBlock u v
  let idctBlock := idct2d modified
  fun i =>
    let row := i / w
    let col := i % w
    if row / 8 = byv ∧ col / 8 = bx ∧ col < w ∧ row < h then
      idctBlock (row % 8) (col % 8)
    else cur i

/-- `embedWatermark` (`src/core/embed.ts` lines 43–144): luminance, PRNG
seeded from the payload bits, assignments, sample buckets, per-block DCT
rewrite into `processedY`, then RGB reconstruction with the luminance
delta (see `reconstructRGB`). This definition yields the processed
luminance plane. -/
noncomputable def embedProcessedY (strength : ℝ) (img : ImageData)
    (payloadBits : List Nat) : Nat → ℝ :=
  let w := img.width
  let h := img.height
  let y := extractLuminance img.data
  let blocksX := w / 8
  let blocksY := h / 8
  let totalBlocks := blocksX * blocksY
  let encodedBits := encodeWithRepetition payloadBits
  let st0 := seedInit payloadBits
  let r := createBlockAssignments st0 totalBlocks encodedBits.length
  let sched := scheduleLoop totalBlocks r.1.2 encodedBits.length r.1.1 r.2
  let votes := blockVotes sched encodedBits r.1.1
  (List.range blocksY).foldl
    (fun acc byv =>
      (List.range blocksX).foldl
        (fun acc2 bx => embedProcessBlock strength y w h blocksX votes acc2 bx byv)
        acc)
    y

/-- Round to nearest, ties to even: the conversion a JS
`Uint8ClampedArray` applies to a non-integral stored value. -/
noncomputable def roundHalfEven (x : ℝ) : ℤ :=
  if Int.fract x < 1 / 2 then ⌊x⌋
  else if 1 / 2 < Int.fract x then ⌊x⌋ + 1
  else if ⌊x⌋ % 2 = 0 then ⌊x⌋ else ⌊x⌋ + 1

/-- Store a JS number into a `Uint8ClampedArray` slot (clamp to `[0,255]`,
round half to even); the code additionally applies
`Math.max(0, Math.min(255, …))` before the store, which this absorbs. -/
noncomputable def clampByte (x : ℝ) : Nat := (roundHalfEven (max 0 (min 255 x))).toNat

/-- `reconstructRGB` (`src/core/embed.ts` lines 23–41): per pixel `i`,
recompute the original luminance, add `deltaY = y'[i] - originalY` to each
of R, G, B clamped to `[0,255]`, and copy alpha. Indices at or beyond
`4·w·h` stay 0 (the freshly allocated output array). -/
noncomputable def reconstructRGB (y' : Nat → ℝ) (data : Nat → Nat)
    (w h : Nat) : Nat → Nat :=
  fun idx =>
    if idx < w * h * 4 then
      let i := idx / 4
      let c := idx % 4
      let originalY : ℝ := 0.299 * data (i * 4) + 0.587 * data (i * 4 + 1) +
        0.114 * data (i * 4 + 2)
      let deltaY := y' i - originalY
      if c = 3 then data idx
      else clampByte (data idx + deltaY)
    else 0

/-- `embedWatermark` assembled: same dimensions, pixels from
`reconstructRGB` over the processed luminance. -/
noncomputable def embedWatermark (strength : ℝ) (img : ImageData)
    (payloadBits : List Nat) : ImageData :=
  ⟨img.width, img.height,
    reconstructRGB (embedProcessedY strength img payloadBits) img.data
      img.width img.height⟩

/-! ## PDF page selection (`src/io/pdf.ts`) -/

/-- The `PageSelection` union type of `src/io/pdf.ts`:
`'all' | 'first' | number[] | { from, to }`. -/
inductive PageSelection where
  | all : PageSelection
  | first : PageSelection
  | list : List Int → PageSelection
  | range : Int → Int → PageSelection

/-- `resolvePageSelection` (`src/io/pdf.ts` lines 95–115): resolve a page
selection to 0-based page indices. The explicit list is filtered to
`0 ≤ idx < totalPages`; the `{from, to}` shape clamps
`min(from,to)` and `max(from,to)` against `[0, totalPages-1]` and emits
the ascending run `[start … end]` of length `end - start + 1`. -/
def resolvePageSelection (sel : PageSelection) (totalPages : Nat) : List Int :=
  match sel with
  | .all => (List.range totalPages).map Int.ofNat
  | .first => if totalPages > 0 then [0] else []
  | .list l => l.filter fun idx => 0 ≤ idx ∧ idx < (totalPages : Int)
  | .range f t =>
    let start := max 0 (min (min f t) ((totalPages : Int) - 1))
    let stop := max start (min (max f t) ((totalPages : Int) - 1))
    (List.range (stop - start + 1).toNat).map fun i : Nat => start + (i : Int)

end BrowserWatermark

open BrowserWatermark

theorem seedGroupsAux_eq_seedBytesAux (seed : List Nat) (n : Nat) :
    seedGroupsAux seed n = seedBytesAux seed (4 * n) := by
  induction n with
  | zero => rfl
  | succ n ih =>
    have h4 : 4 * (n + 1) = (4 * n) + 1 + 1 + 1 + 1 := by ring
    rw [seedGroupsAux, ih, h4]
    show seedGroupStep seed n (seedBytesAux seed (4 * n)) = _
    simp only [seedBytesAux]
    have h0 : (4 * n) % 4 = 0 := by omega
    have h1 : (4 * n + 1) % 4 = 1 := by omega
    have h2 : (4 * n + 1 + 1) % 4 = 2 := by omega
    have h3 : (4 * n + 1 + 1 + 1) % 4 = 3 := by omega
    simp only [seedByteStep, seedGroupStep, h0, h1, h2, h3]

theorem seedInit_eq_seedInitBytes (seed : List Nat) (h : seed.length = 64) :
    seedInit seed = seedInitBytes seed := by
  rw [seedInit, seedInitBytes, h]
  norm_num
  rw [seedGroupsAux_eq_seedBytesAux]

/-- Claim C2: the claim reads the PRNG seeding as acting on the 8-byte
digest with shift `((i + j) mod 32)`, `j = i mod 4`. On the digest
`[1,0,0,0,0,0,0,0]` that yields state `(1,0,0,0)`; the code seeds the PRNG
from the 64-entry bit array of the digest (`digestToBits`), where only bit
7 is set, yielding `(0,0,0,128)` — the claim is false on the code. -/
theorem C2_counterexample :
    seedInit (digestToBits [1, 0, 0, 0, 0, 0, 0, 0] 64) ≠
      claimedSeedInit [1, 0, 0, 0, 0, 0, 0, 0] := by decide

/-- Claim C2 (amended): the PRNG used by embed and extract is seeded from
the 64-entry MSB-first bit array of the digest; each byte `seed[i]`
(`0 ≤ i < 64`) is XORed into `s[i mod 4]` left-shifted by `(i mod 32)`,
and an all-zero state is replaced by the fixed quadruple
`(0x12345678, 0x9abcdef0, 0xfedcba98, 0x76543210)`. -/
theorem C2_amended (digest : List Nat) :
    seedInit (digestToBits digest 64) = seedInitBytes (digestToBits digest 64) :=
  seedInit_eq_seedInitBytes _ (by simp [digestToBits])

/-- Claim C3: for every payload bit sequence and image dimensions, the
sequence of `(block index, coefficient index)` pairs consumed from the
PRNG by `embedWatermark` (bit-index order, then sample order) is identical
to the sequence consumed by `extractWatermark` for the same expected
payload bits and dimensions. -/
theorem C3_schedule_equal (bits : List Nat) (width height : Nat) :
    embedSchedule bits width height = extractSchedule bits width height := by
  unfold embedSchedule extractSchedule
  simp [encodeWithRepetition]

/-- Claim C4: `createBlockAssignments` with `encodedLength = 192` returns
`blocksPerBit = max 1 ⌊totalBlocks / 192⌋`; it returns no assignment list
exactly when `blocksPerBit * 192 > totalBlocks`, and otherwise the first
`blocksPerBit * 192` entries of the Fisher-Yates shuffle of
`[0 … totalBlocks)` whose swap index at step `i` (from `totalBlocks - 1`
down to `1`) is `⌊prng.next() * (i+1)⌋`. -/
theorem C4_createBlockAssignments (st : PrngState) (totalBlocks : Nat) :
    (createBlockAssignments st totalBlocks 192).1.1 = max 1 (totalBlocks / 192) ∧
    ((createBlockAssignments st totalBlocks 192).1.2 = none ↔
      max 1 (totalBlocks / 192) * 192 > totalBlocks) ∧
    (max 1 (totalBlocks / 192) * 192 ≤ totalBlocks →
      (createBlockAssignments st totalBlocks 192).1.2 =
        some ((fisherYatesAux st (List.range totalBlocks) (totalBlocks - 1)).1.take
          (max 1 (totalBlocks / 192) * 192))) := by
  unfold createBlockAssignments
  by_cases h : max 1 (totalBlocks / 192) * 192 > totalBlocks <;> simp [h]

/-- Witness for C4 at `totalBlocks = 384` (the materialized case:
`blocksPerBit = 2`, `2 * 192 = 384 ≤ 384`). -/
theorem C4_witness :
    (createBlockAssignments ⟨1, 2, 3, 4⟩ 384 192).1.1 = max 1 (384 / 192) ∧
    (createBlockAssignments ⟨1, 2, 3, 4⟩ 384 192).1.2 =
      some ((fisherYatesAux ⟨1, 2, 3, 4⟩ (List.range 384) (384 - 1)).1.take
        (max 1 (384 / 192) * 192)) :=
  ⟨(C4_createBlockAssignments ⟨1, 2, 3, 4⟩ 384).1,
   (C4_createBlockAssignments ⟨1, 2, 3, 4⟩ 384).2.2 (by decide)⟩

/-- Claim C10: false as stated. For `totalPages = 0` the range shape
returns `[0]`, which is not inside `[0, totalPages) = ∅`: the clamp
`max(0, min(…, totalPages - 1))` clamps against `-1` and `max 0` lifts the
result back to `0`, and the emitted run always has length at least 1. -/
theorem C10_counterexample :
    resolvePageSelection (PageSelection.range 0 0) 0 = [0] ∧
    ¬ ((0 : Int) < ((0 : Nat) : Int)) := by decide

/-- Claim C10 (amended): explicit list entries outside `[0, totalPages)`
are dropped for every `totalPages ≥ 0`; for every `totalPages ≥ 1` the
range shape returns only indices in `[0, totalPages)`, an inverted range
is normalized (swapping `from` and `to` gives the same result), and the
result is the ascending run from `clamp (min from to)` to
`clamp (max from to)` with `clamp x = max 0 (min x (totalPages - 1))`. -/
theorem C10_amended (l : List Int) (f t : Int) (totalPages : Nat) :
    (∀ i ∈ resolvePageSelection (PageSelection.list l) totalPages,
        0 ≤ i ∧ i < (totalPages : Int)) ∧
    (1 ≤ totalPages →
      (∀ i ∈ resolvePageSelection (PageSelection.range f t) totalPages,
          0 ≤ i ∧ i < (totalPages : Int)) ∧
      resolvePageSelection (PageSelection.range f t) totalPages =
        resolvePageSelection (PageSelection.range (min f t) (max f t)) totalPages ∧
      resolvePageSelection (PageSelection.range f t) totalPages =
        (List.range ((max 0 (min (max f t) ((totalPages : Int) - 1)) -
            max 0 (min (min f t) ((totalPages : Int) - 1)) + 1)).toNat).map
          (fun i : Nat => max 0 (min (min f t) ((totalPages : Int) - 1)) + (i : Int))) := by
  have hmm : min f t ≤ max f t := min_le_max
  constructor
  · intro i hi
    rw [resolvePageSelection, List.mem_filter] at hi
    exact of_decide_eq_true hi.2
  · intro htp
    have htp1 : (1 : Int) ≤ (totalPages : Int) := by exact_mod_cast htp
    have hlo0 : (0 : Int) ≤ max 0 (min (min f t) ((totalPages : Int) - 1)) :=
      le_max_left _ _
    have hlotop : max 0 (min (min f t) ((totalPages : Int) - 1)) ≤
        (totalPages : Int) - 1 :=
      max_le (by omega) (min_le_right _ _)
    have hhitop : max (max 0 (min (min f t) ((totalPages : Int) - 1)))
        (min (max f t) ((totalPages : Int) - 1)) ≤ (totalPages : Int) - 1 :=
      max_le hlotop (min_le_right _ _)
    have hlohi : max 0 (min (min f t) ((totalPages : Int) - 1)) ≤
        max (max 0 (min (min f t) ((totalPages : Int) - 1)))
          (min (max f t) ((totalPages : Int) - 1)) := le_max_left _ _
    refine ⟨?_, ?_, ?_⟩
    · intro i hi
      simp only [resolvePageSelection, List.mem_map, List.mem_range] at hi
      obtain ⟨k, hk, rfl⟩ := hi
      rw [Int.lt_toNat] at hk
      constructor
      · have : (0 : Int) ≤ (k : Int) := Int.natCast_nonneg k
        omega
      · omega
    · have e1 : min (min f t) (max f t) = min f t := min_eq_left hmm
      have e2 : max (min f t) (max f t) = max f t := max_eq_right hmm
      simp only [resolvePageSelection, e1, e2]
    · have hcollapse :
          max (max 0 (min (min f t) ((totalPages : Int) - 1)))
              (min (max f t) ((totalPages : Int) - 1)) =
            max 0 (min (max f t) ((totalPages : Int) - 1)) := by omega
      simp only [resolvePageSelection, hcollapse]

/-- Witness for C10 (amended) at the inverted range `{from: 3, to: 1}` with
`totalPages = 2`. -/
theorem C10_witness :
    resolvePageSelection (PageSelection.range 3 1) 2 =
      resolvePageSelection (PageSelection.range (min 3 1) (max 3 1)) 2 :=
  ((C10_amended [] 3 1 2).2 (by decide)).2.1

theorem lor_lt_256 {x y : Nat} (hx : x < 256) (hy : y < 256) : x ||| y < 256 := by
  have h := Nat.bitwise_lt (f := or) (n := 8) (x := x) (y := y)
    (by norm_num at hx ⊢; exact hx) (by norm_num at hy ⊢; exact hy)
  norm_num at h
  exact h

theorem packFold_lt_256 (bits : List Nat) (j : Nat) (ks : List Nat)
    (hks : ∀ k ∈ ks, k < 8) (acc : Nat) (hacc : acc < 256) :
    ks.foldl
      (fun acc k => if bits.getD (8 * j + k) 0 ≠ 0 then acc ||| (1 <<< (7 - k)) else acc)
      acc < 256 := by
  induction ks generalizing acc with
  | nil => exact hacc
  | cons k ks ih =>
    refine ih (fun x hx => hks x (List.mem_cons_of_mem _ hx)) _ ?_
    have hk : k < 8 := hks k (List.mem_cons_self _ _)
    show (if bits.getD (8 * j + k) 0 ≠ 0 then acc ||| 1 <<< (7 - k) else acc) < 256
    by_cases hb : bits.getD (8 * j + k) 0 ≠ 0
    · rw [if_pos hb]
      refine lor_lt_256 hacc ?_
      have h7 : (7 - k) ≤ 7 := by omega
      calc 1 <<< (7 - k) ≤ 1 <<< 7 := by
            simp only [Nat.shiftLeft_eq, one_mul]
            exact Nat.pow_le_pow_right (by norm_num) h7
        _ < 256 := by decide
    · rw [if_neg hb]
      exact hacc

theorem packRecoveredBits_lt_256 (bits : List Nat) :
    ∀ b ∈ packRecoveredBits bits, b < 256 := by
  intro b hb
  rw [packRecoveredBits, List.mem_map] at hb
  obtain ⟨j, _, rfl⟩ := hb
  exact packFold_lt_256 bits j _ (fun k hk => List.mem_range.mp hk) 0 (by norm_num)

theorem hexChar_inj : ∀ x < 16, ∀ y < 16, hexChar x = hexChar y → x = y := by decide

theorem arrayBufferToHex_inj (a : List Nat) :
    ∀ b : List Nat, (∀ x ∈ a, x < 256) → (∀ x ∈ b, x < 256) →
      (arrayBufferToHex a = arrayBufferToHex b ↔ a = b) := by
  induction a with
  | nil =>
    intro b _ _
    cases b with
    | nil => simp
    | cons y ys => simp [arrayBufferToHex, byteToHexChars]
  | cons x xs ih =>
    intro b hxa hxb
    cases b with
    | nil => simp [arrayBufferToHex, byteToHexChars]
    | cons y ys =>
      have hx : x < 256 := hxa x (List.mem_cons_self _ _)
      have hy : y < 256 := hxb y (List.mem_cons_self _ _)
      simp only [arrayBufferToHex, List.map_cons, List.flatten_cons, byteToHexChars,
        List.cons_append, List.nil_append, List.cons.injEq]
      rw [← arrayBufferToHex, ← arrayBufferToHex,
        ih ys (fun z hz => hxa z (List.mem_cons_of_mem _ hz))
          (fun z hz => hxb z (List.mem_cons_of_mem _ hz))]
      constructor
      · rintro ⟨h1, h2, h3⟩
        have hxd : x / 16 = y / 16 :=
          hexChar_inj _ (by omega) _ (by omega) h1
        have hxm : x % 16 = y % 16 :=
          hexChar_inj _ (by omega) _ (by omega) h2
        exact ⟨by omega, h3⟩
      · rintro ⟨rfl, rfl⟩
        exact ⟨rfl, rfl, rfl⟩

/-- Claim C1: `verify` reports a match exactly when the extractor's
confidence reaches the threshold (default 0.85 when the caller gives none)
and the 64 recovered bits, packed MSB-first into 8 bytes, equal the first
8 bytes of the expected digest byte for byte. The hex-string comparison of
the code is equivalent to the byte-for-byte comparison because two-digit
lowercase hex is injective on bytes. -/
theorem C1_verify_match (recoveredBits : List Nat) (confidence : ℝ)
    (expectedDigest : List Nat) (thresholdOpt : Option ℝ)
    (hd : ∀ b ∈ expectedDigest, b < 256) :
    verifyIsMatch recoveredBits confidence expectedDigest thresholdOpt ↔
      thresholdOpt.getD (85 / 100) ≤ confidence ∧
        expectedDigest.take 8 = packRecoveredBits recoveredBits := by
  have hth : MATCH_THRESHOLD = (85 / 100 : ℝ) := by norm_num [MATCH_THRESHOLD]
  rw [verifyIsMatch, hth]
  refine and_congr Iff.rfl ?_
  exact arrayBufferToHex_inj _ _
    (fun z hz => hd z (List.mem_of_mem_take hz))
    (packRecoveredBits_lt_256 recoveredBits)

/-- Witness for C1 with an all-ones recovered bit list, the matching
digest `[0xff × 8]`, confidence 0.9 and no explicit threshold. -/
theorem C1_witness :
    verifyIsMatch (List.replicate 64 1) (9 / 10) (List.replicate 8 255) none ↔
      (Option.none.getD (85 / 100) ≤ (9 / 10 : ℝ) ∧
        (List.replicate 8 255).take 8 =
          packRecoveredBits (List.replicate 64 1)) :=
  C1_verify_match (List.replicate 64 1) (9 / 10) (List.replicate 8 255) none
    (by decide)

/-- Claim C5: false as stated. The claim says the majority bit is 1 on
ties (`sum = n/2`); the code computes `sum > n/2` strictly, so the tie
`bits = [1,0]` (one sample 1, one sample 0) yields majority bit 0 and the
written coefficient is `-(|c| + S)`, not `+(|c| + S)` (shown at `S = 1`,
`c = 0`). -/
theorem C5_counterexample :
    majorityBit [1, 0] = 0 ∧ 2 * sumBits [1, 0] = ([1, 0] : List Nat).length ∧
      embedCoeffWrite 1 [1, 0] 0 = -1 := by
  refine ⟨?_, by decide, ?_⟩ <;>
    norm_num [majorityBit, sumBits, embedCoeffWrite]

/-- Claim C5 (amended): with a positive embedding strength `S`, for `n ≥ 1`
samples the written coefficient is `+(|c| + S)` when strictly more than
half the sample bits are 1 and `-(|c| + S)` otherwise; ties favor 0
(`sum > n/2` is strict), and the written value is positive exactly on
strict majorities. -/
theorem C5_amended (S : ℝ) (bits : List Nat) (c : ℝ) (hS : 0 < S)
    (hn : 1 ≤ bits.length) :
    (majorityBit bits = 1 ↔ 2 * sumBits bits > bits.length) ∧
    embedCoeffWrite S bits c =
      (if 2 * sumBits bits > bits.length then |c| + S else -(|c| + S)) ∧
    (0 < embedCoeffWrite S bits c ↔ 2 * sumBits bits > bits.length) := by
  have hiff : ((bits.length : ℚ) / 2 < (sumBits bits : ℚ)) ↔
      2 * sumBits bits > bits.length := by
    rw [div_lt_iff₀ (by norm_num)]
    constructor
    · intro h
      have h' : (bits.length : ℚ) < 2 * (sumBits bits : ℚ) := by linarith
      exact_mod_cast h'
    · intro h
      have h' : (bits.length : ℚ) < 2 * (sumBits bits : ℚ) := by exact_mod_cast h
      linarith
  have hpos : 0 < |c| + S := add_pos_of_nonneg_of_pos (abs_nonneg c) hS
  refine ⟨?_, ?_, ?_⟩
  · rw [majorityBit]
    by_cases h : (bits.length : ℚ) / 2 < (sumBits bits : ℚ)
    · simp [h, hiff.mp h]
    · simp only [h, if_false]
      constructor
      · intro h0; exact absurd h0 (by norm_num)
      · intro h2; exact absurd (hiff.mpr h2) h
  · rw [embedCoeffWrite, majorityBit]
    by_cases h : (bits.length : ℚ) / 2 < (sumBits bits : ℚ)
    · simp [h, hiff.mp h]
    · have : ¬ (2 * sumBits bits > bits.length) := fun h2 => h (hiff.mpr h2)
      simp [h, this]
  · rw [embedCoeffWrite, majorityBit]
    by_cases h : (bits.length : ℚ) / 2 < (sumBits bits : ℚ)
    · simp [h, hiff.mp h, hpos]
    · have h2 : ¬ (2 * sumBits bits > bits.length) := fun h2 => h (hiff.mpr h2)
      simp [h, h2]
      linarith
theorem getD_map_range {α : Type} (n : Nat) (f : Nat → α) (k : Nat) (d : α)
    (hk : k < n) : ((List.range n).map f).getD k d = f k := by
  rw [List.getD_eq_getElem?_getD, List.getElem?_map, List.getElem?_range hk]
  rfl

theorem decodeAvg_encoded (bits : List Nat) (i : Nat) (hi : i < bits.length) :
    decodeAvg ((encodeWithRepetition bits).map fun b : Nat => (b : ℝ)) i =
      (bits.getD i 0 : ℝ) := by
  have hlen : ((encodeWithRepetition bits).map fun b : Nat => (b : ℝ)).length =
      bits.length * 3 := by
    simp [encodeWithRepetition]
  have hgd : ∀ j, j < 3 →
      ((encodeWithRepetition bits).map fun b : Nat => (b : ℝ)).getD (i * 3 + j) 0 =
        (bits.getD i 0 : ℝ) := by
    intro j hj
    rw [encodeWithRepetition, List.map_map]
    rw [getD_map_range _ _ _ _ (by omega)]
    have : (i * 3 + j) / 3 = i := by omega
    simp [this]
  rw [decodeAvg, hlen]
  rw [show List.range 3 = [0, 1, 2] from rfl]
  simp only [List.map_cons, List.map_nil, List.sum_cons, List.sum_nil]
  rw [if_pos (by omega), if_pos (by omega), if_pos (by omega),
    hgd 0 (by omega), hgd 1 (by omega), hgd 2 (by omega)]
  ring

/-- Claim C6: for every sequence of 64 bits in `{0,1}`, decoding the 192
soft values obtained by 3× repetition (as exact floats 0.0/1.0) returns
exactly the input bits with overall confidence 1. -/
theorem C6_ecc_roundtrip (bits : List Nat) (h01 : ∀ b ∈ bits, b = 0 ∨ b = 1)
    (hlen : bits.length = 64) :
    decodeWithMajorityVote ((encodeWithRepetition bits).map fun b : Nat => (b : ℝ)) 64 =
      (bits, 1) := by
  rw [decodeWithMajorityVote, Prod.mk.injEq]
  have hmem : ∀ i, i < 64 → bits.getD i 0 = 0 ∨ bits.getD i 0 = 1 := by
    intro i hi
    have hi' : i < bits.length := by omega
    rw [List.getD_eq_getElem _ _ hi']
    exact h01 _ (List.getElem_mem hi')
  constructor
  · apply List.ext_getElem
    · simp [hlen]
    · intro i h1 h2
      have hi : i < 64 := by simpa using h1
      rw [List.getElem_map, List.getElem_range]
      rw [decodeAvg_encoded bits i (by omega)]
      rw [← List.getD_eq_getElem bits 0 h2]
      rcases hmem i hi with h | h <;> rw [h] <;> norm_num
  · have hone : ∀ i ∈ List.range 64,
        |decodeAvg ((encodeWithRepetition bits).map fun b : Nat => (b : ℝ)) i - 1 / 2| * 2 =
          1 := by
      intro i hi
      have hi' : i < 64 := List.mem_range.mp hi
      rw [decodeAvg_encoded bits i (by omega)]
      rcases hmem i hi' with h | h <;> rw [h] <;> norm_num <;>
        rw [abs_of_nonneg (by norm_num : (0 : ℝ) ≤ 1 / 2)] <;> norm_num
    rw [List.map_congr_left hone]
    norm_num [List.sum_replicate, List.map_const]

/-- Witness for C6 at the all-zero 64-bit sequence. -/
theorem C6_witness :
    decodeWithMajorityVote
        ((encodeWithRepetition (List.replicate 64 0)).map fun b : Nat => (b : ℝ)) 64 =
      (List.replicate 64 0, 1) :=
  C6_ecc_roundtrip (List.replicate 64 0) (by decide) (by decide)

theorem cexp_pow_re (θ : ℝ) (u : Nat) :
    (Complex.exp (θ * Complex.I) ^ u).re = Real.cos (u * θ) := by
  rw [← Complex.exp_nat_mul]
  rw [show (u : ℂ) * (↑θ * Complex.I) = ↑((u : ℝ) * θ) * Complex.I by push_cast; ring]
  exact Complex.exp_ofReal_mul_I_re _

theorem cexp_ne_one (k : ℤ) (h16 : ¬ (16 : ℤ) ∣ k) :
    Complex.exp (((k : ℝ) * Real.pi / 8 : ℝ) * Complex.I) ≠ 1 := by
  intro h
  rw [Complex.exp_eq_one_iff] at h
  obtain ⟨n, hn⟩ := h
  rw [show (n : ℂ) * (2 * ↑Real.pi * Complex.I) =
      ↑((n : ℝ) * (2 * Real.pi)) * Complex.I by push_cast; ring] at hn
  have hre : (k : ℝ) * Real.pi / 8 = (n : ℝ) * (2 * Real.pi) :=
    Complex.ofReal_inj.mp (mul_right_cancel₀ Complex.I_ne_zero hn)
  have hπ : Real.pi ≠ 0 := Real.pi_ne_zero
  have h0 : ((k : ℝ) - 16 * n) * Real.pi = 0 := by
    field_simp at hre
    linarith
  have hk16 : (k : ℝ) = 16 * n := by
    rcases mul_eq_zero.mp h0 with h | h
    · linarith
    · exact absurd h hπ
  have hk16' : k = 16 * n := by exact_mod_cast hk16
  exact h16 ⟨n, hk16'⟩

theorem cexp_pow_eight (k : ℤ) :
    Complex.exp (((k : ℝ) * Real.pi / 8 : ℝ) * Complex.I) ^ 8 =
      (-1 : ℂ) ^ k := by
  rw [← Complex.exp_nat_mul]
  rw [show ((8 : ℕ) : ℂ) * (↑((k : ℝ) * Real.pi / 8) * Complex.I) =
      (k : ℂ) * (↑Real.pi * Complex.I) by push_cast; ring]
  rw [Complex.exp_int_mul, Complex.exp_pi_mul_I]

theorem sum_cexp_re (k : ℤ) :
    ∑ u ∈ Finset.range 8, Real.cos ((k : ℝ) * u * Real.pi / 8) =
      (∑ u ∈ Finset.range 8,
        Complex.exp (((k : ℝ) * Real.pi / 8 : ℝ) * Complex.I) ^ u).re := by
  rw [Complex.re_sum]
  refine Finset.sum_congr rfl fun u _ => ?_
  rw [cexp_pow_re]
  congr 1
  ring

theorem normSq_cexp_sub_one (k : ℤ) :
    Complex.normSq (Complex.exp (((k : ℝ) * Real.pi / 8 : ℝ) * Complex.I) - 1) =
      2 - 2 * (Complex.exp (((k : ℝ) * Real.pi / 8 : ℝ) * Complex.I)).re := by
  set θ : ℝ := (k : ℝ) * Real.pi / 8
  have hre : (Complex.exp (↑θ * Complex.I)).re = Real.cos θ :=
    Complex.exp_ofReal_mul_I_re _
  have him : (Complex.exp (↑θ * Complex.I)).im = Real.sin θ :=
    Complex.exp_ofReal_mul_I_im _
  rw [Complex.normSq_apply, Complex.sub_re, Complex.sub_im, Complex.one_re,
    Complex.one_im, hre, him]
  nlinarith [Real.sin_sq_add_cos_sq θ]

theorem sum_cos_eight_odd (k : ℤ) (hk : Odd k) :
    ∑ u ∈ Finset.range 8, Real.cos ((k : ℝ) * u * Real.pi / 8) = 1 := by
  have h16 : ¬ (16 : ℤ) ∣ k := by
    intro ⟨n, hn⟩
    rcases hk with ⟨m, hm⟩
    omega
  set ζ : ℂ := Complex.exp (((k : ℝ) * Real.pi / 8 : ℝ) * Complex.I) with hζ
  have hne : ζ ≠ 1 := cexp_ne_one k h16
  have h8 : ζ ^ 8 = -1 := by rw [hζ, cexp_pow_eight]; exact Odd.neg_one_zpow hk
  have hgeom : ∑ u ∈ Finset.range 8, ζ ^ u = (ζ ^ 8 - 1) / (ζ - 1) :=
    geom_sum_eq hne 8
  rw [sum_cexp_re, ← hζ, hgeom, h8]
  have hre1 : ζ.re ≠ 1 := by
    intro hre1
    apply hne
    have hns := normSq_cexp_sub_one k
    rw [← hζ] at hns
    rw [hre1] at hns
    have : Complex.normSq (ζ - 1) = 0 := by rw [hns]; ring
    have := Complex.normSq_eq_zero.mp this
    have : ζ = 1 := by linear_combination this
    exact this
  have hns : Complex.normSq (ζ - 1) = 2 - 2 * ζ.re := by
    rw [hζ]; exact normSq_cexp_sub_one k
  have hns0 : Complex.normSq (ζ - 1) ≠ 0 := by
    rw [hns]
    intro h
    exact hre1 (by linarith)
  rw [div_eq_mul_inv, Complex.mul_re, Complex.inv_re, Complex.inv_im,
    Complex.sub_re, Complex.sub_im, Complex.one_re, Complex.one_im, hns]
  simp only [Complex.sub_re, Complex.sub_im, Complex.one_re, Complex.one_im,
    Complex.neg_re, Complex.neg_im, Complex.one_re]
  norm_num
  have hden : (2 - 2 * ζ.re) ≠ 0 := fun h => hre1 (by linarith)
  rw [show -(2 * ((ζ.re - 1) / (2 - 2 * ζ.re))) =
      (2 - 2 * ζ.re) / (2 - 2 * ζ.re) by ring, div_self hden]

theorem sum_cos_eight_even (k : ℤ) (hk : Even k) (h16 : ¬ (16 : ℤ) ∣ k) :
    ∑ u ∈ Finset.range 8, Real.cos ((k : ℝ) * u * Real.pi / 8) = 0 := by
  set ζ : ℂ := Complex.exp (((k : ℝ) * Real.pi / 8 : ℝ) * Complex.I) with hζ
  have hne : ζ ≠ 1 := cexp_ne_one k h16
  have h8 : ζ ^ 8 = 1 := by rw [hζ, cexp_pow_eight]; exact Even.neg_one_zpow hk
  have hgeom : ∑ u ∈ Finset.range 8, ζ ^ u = (ζ ^ 8 - 1) / (ζ - 1) :=
    geom_sum_eq hne 8
  rw [sum_cexp_re, ← hζ, hgeom, h8]
  simp

theorem sum_cos_eight_zero :
    ∑ u ∈ Finset.range 8, Real.cos (((0 : ℤ) : ℝ) * u * Real.pi / 8) = 8 := by
  norm_num

theorem cosTable_zero (t : Nat) : cosTable t 0 = 1 := by
  rw [cosTable]
  norm_num

theorem dctC_sq (u : Nat) : dctC u ^ 2 = if u = 0 then 1 / 2 else 1 := by
  rw [dctC]
  split
  · rw [div_pow, one_pow, Real.sq_sqrt (by norm_num : (0 : ℝ) ≤ 2)]
  · norm_num

theorem cos_mul_cos_table (t x u : Nat) :
    cosTable t u * cosTable x u =
      (Real.cos ((((t + x + 1 : ℕ) : ℤ) : ℝ) * u * Real.pi / 8) +
        Real.cos (((((t : ℤ) - x) : ℤ) : ℝ) * u * Real.pi / 8)) / 2 := by
  rw [cosTable, cosTable]
  set a : ℝ := (2 * t + 1) * u * Real.pi / 16 with ha
  set b : ℝ := (2 * x + 1) * u * Real.pi / 16 with hb
  have hsum : (((t + x + 1 : ℕ) : ℤ) : ℝ) * u * Real.pi / 8 = a + b := by
    rw [ha, hb]
    push_cast
    ring
  have hdiff : ((((t : ℤ) - x) : ℤ) : ℝ) * u * Real.pi / 8 = a - b := by
    rw [ha, hb]
    push_cast
    ring
  rw [hsum, hdiff, Real.cos_add, Real.cos_sub]
  ring

theorem dct_orth (t x : Nat) (ht : t < 8) (hx : x < 8) :
    ∑ u ∈ Finset.range 8, dctC u ^ 2 * (cosTable t u * cosTable x u) =
      if t = x then 4 else 0 := by
  have hterm : ∀ u ∈ Finset.range 8,
      dctC u ^ 2 * (cosTable t u * cosTable x u) =
        cosTable t u * cosTable x u -
          (if u = 0 then (1 / 2) * (cosTable t 0 * cosTable x 0) else 0) := by
    intro u _
    rw [dctC_sq]
    by_cases h : u = 0
    · subst h
      rw [if_pos rfl, if_pos rfl]
      ring
    · rw [if_neg h, if_neg h]
      ring
  rw [Finset.sum_congr rfl hterm, Finset.sum_sub_distrib,
    Finset.sum_ite_eq' (Finset.range 8) 0
      (fun _ => (1 / 2) * (cosTable t 0 * cosTable x 0)),
    if_pos (by norm_num : 0 ∈ Finset.range 8), cosTable_zero, cosTable_zero]
  have hfull : ∑ u ∈ Finset.range 8, cosTable t u * cosTable x u =
      ((∑ u ∈ Finset.range 8,
          Real.cos ((((t + x + 1 : ℕ) : ℤ) : ℝ) * u * Real.pi / 8)) +
        (∑ u ∈ Finset.range 8,
          Real.cos (((((t : ℤ) - x) : ℤ) : ℝ) * u * Real.pi / 8))) / 2 := by
    rw [Finset.sum_congr rfl fun u _ => cos_mul_cos_table t x u]
    rw [← Finset.sum_div, Finset.sum_add_distrib]
  rw [hfull]
  by_cases hte : t = x
  · subst hte
    rw [if_pos rfl]
    have hodd : Odd ((t + t + 1 : ℕ) : ℤ) := by
      rw [Int.odd_iff]
      omega
    have h1 := sum_cos_eight_odd ((t + t + 1 : ℕ) : ℤ) hodd
    have h0 : ((((t : ℤ) - t) : ℤ) : ℝ) = ((0 : ℤ) : ℝ) := by norm_num
    have h2' : ∑ u ∈ Finset.range 8,
        Real.cos (((((t : ℤ) - t) : ℤ) : ℝ) * u * Real.pi / 8) = 8 := by
      rw [Finset.sum_congr rfl fun u _ => by rw [h0]]
      exact sum_cos_eight_zero
    rw [h1, h2']
    norm_num
  · rw [if_neg hte]
    have hne : ((t : ℤ) - x) ≠ 0 := by
      intro h
      exact hte (by omega)
    have hbound : -7 ≤ (t : ℤ) - x ∧ (t : ℤ) - x ≤ 7 := by omega
    have h16m : ¬ (16 : ℤ) ∣ ((t : ℤ) - x) := by omega
    rcases Int.even_or_odd ((t : ℤ) - x) with he | ho
    · have hTm := sum_cos_eight_even _ he h16m
      have hodd : Odd ((t + x + 1 : ℕ) : ℤ) := by
        rw [Int.odd_iff]
        rw [Int.even_iff] at he
        omega
      have hTp := sum_cos_eight_odd _ hodd
      rw [hTp, hTm]
      norm_num
    · have hTm := sum_cos_eight_odd _ ho
      have heven : Even ((t + x + 1 : ℕ) : ℤ) := by
        rw [Int.even_iff]
        rw [Int.odd_iff] at ho
        omega
      have h16p : ¬ (16 : ℤ) ∣ ((t + x + 1 : ℕ) : ℤ) := by
        have : (1 : ℤ) ≤ ((t + x + 1 : ℕ) : ℤ) ∧ ((t + x + 1 : ℕ) : ℤ) ≤ 15 := by
          constructor <;> omega
        omega
      have hTp := sum_cos_eight_even _ heven h16p
      rw [hTp, hTm]
      norm_num

theorem idctPass_dctPass (g : Nat → ℝ) (x : Nat) (hx : x < 8) :
    idctPass (fun u => dctPass g u) x = g x := by
  rw [idctPass]
  have hstep : ∀ u ∈ Finset.range 8,
      dctC u * dctPass g u * cosTable x u =
        ∑ t ∈ Finset.range 8,
          g t * (dctC u ^ 2 * (cosTable t u * cosTable x u)) * 0.5 := by
    intro u _
    rw [dctPass, show dctC u * ((∑ t ∈ Finset.range 8, g t * cosTable t u) *
        dctC u * 0.5) * cosTable x u =
      (∑ t ∈ Finset.range 8, g t * cosTable t u) *
        (dctC u ^ 2 * cosTable x u * 0.5) by ring, Finset.sum_mul]
    refine Finset.sum_congr rfl fun t _ => ?_
    ring
  rw [Finset.sum_congr rfl hstep, Finset.sum_comm]
  have hinner : ∀ t ∈ Finset.range 8,
      ∑ u ∈ Finset.range 8,
          g t * (dctC u ^ 2 * (cosTable t u * cosTable x u)) * 0.5 =
        g t * (if t = x then 4 else 0) * 0.5 := by
    intro t htm
    have horth := dct_orth t x (Finset.mem_range.mp htm) hx
    calc ∑ u ∈ Finset.range 8,
          g t * (dctC u ^ 2 * (cosTable t u * cosTable x u)) * 0.5 =
        (∑ u ∈ Finset.range 8, dctC u ^ 2 * (cosTable t u * cosTable x u)) *
          (g t * 0.5) := by
          rw [Finset.sum_mul]
          exact Finset.sum_congr rfl fun u _ => by ring
      _ = g t * (if t = x then 4 else 0) * 0.5 := by rw [horth]; ring
  rw [Finset.sum_congr rfl hinner]
  have hite : ∀ t ∈ Finset.range 8,
      g t * (if t = x then 4 else 0) * 0.5 = if t = x then g t * 2 else 0 := by
    intro t _
    by_cases h : t = x
    · rw [if_pos h, if_pos h]; ring
    · rw [if_neg h, if_neg h]; ring
  rw [Finset.sum_congr rfl hite,
    Finset.sum_ite_eq' (Finset.range 8) x (fun t => g t * 2),
    if_pos (Finset.mem_range.mpr hx)]
  ring

theorem pass_swap (h : Nat → Nat → ℝ) (v x : Nat) :
    idctPass (fun u => dctPass (h u) v) x =
      dctPass (fun yy => idctPass (fun u => h u yy) x) v := by
  rw [idctPass, dctPass]
  have hL : (∑ u ∈ Finset.range 8,
      dctC u * dctPass (h u) v * cosTable x u) * 0.5 =
      ∑ u ∈ Finset.range 8, ∑ yy ∈ Finset.range 8,
        h u yy * (dctC u * dctC v * cosTable yy v * cosTable x u * 0.25) := by
    rw [Finset.sum_mul]
    refine Finset.sum_congr rfl fun u _ => ?_
    rw [dctPass, show dctC u * ((∑ yy ∈ Finset.range 8, h u yy * cosTable yy v) *
        dctC v * 0.5) * cosTable x u * 0.5 =
      (∑ yy ∈ Finset.range 8, h u yy * cosTable yy v) *
        (dctC u * dctC v * cosTable x u * 0.25) by ring, Finset.sum_mul]
    refine Finset.sum_congr rfl fun yy _ => ?_
    ring
  have hR : (∑ yy ∈ Finset.range 8,
      idctPass (fun u => h u yy) x * cosTable yy v) * dctC v * 0.5 =
      ∑ yy ∈ Finset.range 8, ∑ u ∈ Finset.range 8,
        h u yy * (dctC u * dctC v * cosTable yy v * cosTable x u * 0.25) := by
    rw [Finset.sum_mul, Finset.sum_mul]
    refine Finset.sum_congr rfl fun yy _ => ?_
    rw [idctPass, show (∑ u ∈ Finset.range 8, dctC u * h u yy * cosTable x u) *
        0.5 * cosTable yy v * dctC v * 0.5 =
      (∑ u ∈ Finset.range 8, dctC u * h u yy * cosTable x u) *
        (cosTable yy v * dctC v * 0.25) by ring, Finset.sum_mul]
    refine Finset.sum_congr rfl fun u _ => ?_
    ring
  rw [hL, hR, Finset.sum_comm]

theorem idct2d_dct2d (B : Nat → Nat → ℝ) (x y : Nat) (hx : x < 8) (hy : y < 8) :
    idct2d (dct2d B) x y = B x y := by
  show idctPass
      (fun v => idctPass
        (fun u => dctPass (fun yy => dctPass (fun xx => B xx yy) u) v) x) y =
    B x y
  have hswap : (fun v => idctPass
      (fun u => dctPass (fun yy => dctPass (fun xx => B xx yy) u) v) x) =
      fun v => dctPass
        (fun yy => idctPass (fun u => dctPass (fun xx => B xx yy) u) x) v :=
    funext fun v => pass_swap (fun u yy => dctPass (fun xx => B xx yy) u) v x
  rw [hswap]
  have hinner : (fun yy => idctPass
      (fun u => dctPass (fun xx => B xx yy) u) x) = fun yy => B x yy :=
    funext fun yy => idctPass_dctPass (fun xx => B xx yy) x hx
  rw [hinner]
  exact idctPass_dctPass (fun yy => B x yy) y hy

theorem foldl_skip {α β : Type} (l : List β) (a : α) :
    l.foldl (fun x _ => x) a = a := by
  induction l generalizing a with
  | nil => rfl
  | cons b l ih => exact ih a

theorem clampByte_nat (n : Nat) (hn : n ≤ 255) : clampByte (n : ℝ) = n := by
  rw [clampByte]
  have hmin : min (255 : ℝ) (n : ℝ) = (n : ℝ) :=
    min_eq_right (by exact_mod_cast hn)
  have hmax : max (0 : ℝ) (n : ℝ) = (n : ℝ) :=
    max_eq_right (Nat.cast_nonneg n)
  rw [hmin, hmax, roundHalfEven]
  rw [show ((n : ℝ)) = ((n : ℤ) : ℝ) by push_cast; rfl]
  rw [Int.fract_intCast, Int.floor_intCast]
  norm_num

theorem embedProcessedY_small (strength : ℝ) (img : ImageData)
    (bits : List Nat) (hsmall : img.width < 8 ∨ img.height < 8) :
    embedProcessedY strength img bits = extractLuminance img.data := by
  rcases hsmall with h | h
  · have hbx : img.width / 8 = 0 := Nat.div_eq_of_lt h
    rw [embedProcessedY]
    simp only [hbx, List.range_zero, List.foldl_nil]
    exact foldl_skip _ _
  · have hby : img.height / 8 = 0 := Nat.div_eq_of_lt h
    rw [embedProcessedY]
    simp only [hby, List.range_zero, List.foldl_nil]

/-- Claim C8: when the image is narrower or shorter than one 8×8 block,
`embedWatermark` performs no block processing (`totalBlocks = 0`, the
block loops are empty), the luminance delta is zero everywhere, and the
output pixel buffer equals the input byte for byte, alpha included, with
unchanged dimensions; all index computations stay total (the PRNG draws
fall back to `nextInt(0) = 0` and the buckets are simply never read), so
nothing crashes. -/
theorem C8_small_image_identity (strength : ℝ) (img : ImageData)
    (bits : List Nat) (hsmall : img.width < 8 ∨ img.height < 8)
    (hbytes : ∀ i, img.data i ≤ 255) :
    (embedWatermark strength img bits).width = img.width ∧
    (embedWatermark strength img bits).height = img.height ∧
    ∀ idx < img.width * img.height * 4,
      (embedWatermark strength img bits).data idx = img.data idx := by
  refine ⟨rfl, rfl, ?_⟩
  intro idx hidx
  show reconstructRGB (embedProcessedY strength img bits) img.data
      img.width img.height idx = img.data idx
  rw [embedProcessedY_small strength img bits hsmall, reconstructRGB]
  rw [if_pos hidx]
  have hdelta : extractLuminance img.data (idx / 4) -
      (0.299 * img.data ((idx / 4) * 4) + 0.587 * img.data ((idx / 4) * 4 + 1) +
        0.114 * img.data ((idx / 4) * 4 + 2)) = 0 := by
    rw [extractLuminance]
    ring
  by_cases hc : idx % 4 = 3
  · rw [if_pos hc]
  · rw [if_neg hc, hdelta, add_zero]
    exact clampByte_nat _ (hbytes idx)

/-- Witness for C8 at a 4×4 constant-gray image. -/
theorem C8_witness :
    (embedWatermark 25 ⟨4, 4, fun _ => 128⟩ (List.replicate 64 1)).width = 4 ∧
    (embedWatermark 25 ⟨4, 4, fun _ => 128⟩ (List.replicate 64 1)).height = 4 ∧
    (embedWatermark 25 ⟨4, 4, fun _ => 128⟩ (List.replicate 64 1)).data 0 =
      (fun _ => 128 : Nat → Nat) 0 := by
  have h := C8_small_image_identity 25 ⟨4, 4, fun _ => 128⟩ (List.replicate 64 1)
    (Or.inl (by norm_num)) (fun _ => by norm_num)
  exact ⟨h.1, h.2.1, h.2.2 0 (by norm_num)⟩

theorem foldl_emit {σ : Type} (f : List ℝ × σ → Nat → List ℝ × σ) (v : ℝ)
    (hf : ∀ a i, (f a i).1 = a.1 ++ [v]) :
    ∀ (n : Nat) (acc : List ℝ) (s : σ),
      ((List.range n).foldl f (acc, s)).1 = acc ++ List.replicate n v := by
  intro n
  induction n with
  | zero => intro acc s; simp
  | succ n ih =>
    intro acc s
    rw [List.range_succ, List.foldl_append, List.foldl_cons, List.foldl_nil,
      hf, ih acc s, List.replicate_succ', ← List.append_assoc]

theorem dctPass_zero (u : Nat) : dctPass (fun _ => (0 : ℝ)) u = 0 := by
  rw [dctPass]
  simp

theorem dct2d_zero (u v : Nat) : dct2d (fun _ _ => (0 : ℝ)) u v = 0 := by
  show dctPass (fun yy => dctPass (fun _ => (0 : ℝ)) u) v = 0
  rw [show (fun yy => dctPass (fun _ => (0 : ℝ)) u) = fun _ => (0 : ℝ) from
    funext fun _ => dctPass_zero u]
  exact dctPass_zero v

theorem blockPixels_blocksX_zero (y : Nat → ℝ) (w h blockIdx : Nat) :
    blockPixels y w h 0 blockIdx = fun _ _ => 0 := by
  funext r c
  rw [blockPixels, jsMod]
  simp

theorem extractSampleVote_blocksX_zero (y : Nat → ℝ) (w h totalBlocks : Nat)
    (asg : Option (List Nat)) (ai : Nat) (st : PrngState) :
    (extractSampleVote y w h 0 totalBlocks asg ai st).1 = -1 := by
  rw [extractSampleVote, blockPixels_blocksX_zero]
  simp only [dct2d_zero]
  norm_num

theorem extractVotes_const (y : Nat → ℝ) (w h blocksX totalBlocks : Nat)
    (asg : Option (List Nat)) (bpb : Nat) (v : ℝ)
    (hv : ∀ ai st, (extractSampleVote y w h blocksX totalBlocks asg ai st).1 = v)
    (ai : Nat) (st : PrngState) :
    (extractVotes y w h blocksX totalBlocks asg bpb ai st).1 =
      List.replicate bpb v := by
  rw [extractVotes]
  have := foldl_emit
    (fun (a : List ℝ × Nat × PrngState) _ =>
      let r := extractSampleVote y w h blocksX totalBlocks asg a.2.1 a.2.2
      (a.1 ++ [r.1], r.2.1, r.2.2))
    v (fun a i => by simp only [hv]) bpb [] (ai, st)
  simpa using this

theorem extractNoisy_const (y : Nat → ℝ) (w h blocksX totalBlocks : Nat)
    (asg : Option (List Nat)) (encLen bpb : Nat) (st : PrngState) (v : ℝ)
    (hbpb : bpb ≠ 0)
    (hv : ∀ ai st', (extractSampleVote y w h blocksX totalBlocks asg ai st').1 = v) :
    extractNoisy y w h blocksX totalBlocks asg encLen bpb st =
      List.replicate encLen ((v + 1) / 2) := by
  rw [extractNoisy]
  have hemit : ∀ (a : List ℝ × Nat × PrngState) (i : Nat),
      ((fun (a : List ℝ × Nat × PrngState) _ =>
        let r := extractVotes y w h blocksX totalBlocks asg bpb a.2.1 a.2.2
        (a.1 ++ [(r.1.sum / r.1.length + 1) / 2], r.2.1, r.2.2)) a i).1 =
        a.1 ++ [(v + 1) / 2] := by
    intro a i
    simp only
    rw [extractVotes_const y w h blocksX totalBlocks asg bpb v hv]
    have hsum : (List.replicate bpb v).sum = (bpb : ℝ) * v := by
      rw [List.sum_replicate, nsmul_eq_mul]
    have hlen : ((List.replicate bpb v).length : ℝ) = (bpb : ℝ) := by
      rw [List.length_replicate]
    rw [hsum, hlen]
    have hbpbR : (bpb : ℝ) ≠ 0 := Nat.cast_ne_zero.mpr hbpb
    rw [mul_div_cancel_left₀ v hbpbR]
  have := foldl_emit _ ((v + 1) / 2) hemit encLen [] (0, st)
  simpa using this

theorem createBlockAssignments_totalZero (st : PrngState) (encLen : Nat)
    (henc : 0 < encLen) :
    createBlockAssignments st 0 encLen = ((1, none), st) := by
  rw [createBlockAssignments]
  have h1 : max 1 (0 / encLen) = 1 := by simp
  rw [h1, if_pos (by omega)]

theorem decodeAvg_replicate (c : ℝ) (i : Nat) (hi : i < 64) :
    decodeAvg (List.replicate (64 * 3) c) i = c := by
  rw [decodeAvg]
  have hg : ∀ j, j < 3 →
      (List.replicate (64 * 3) c).getD (i * 3 + j) 0 = c := by
    intro j hj
    rw [List.getD_eq_getElem?_getD, List.getElem?_replicate]
    rw [if_pos (by omega)]
    rfl
  rw [show List.range 3 = [0, 1, 2] from rfl]
  simp only [List.map_cons, List.map_nil, List.sum_cons, List.sum_nil,
    List.length_replicate]
  rw [if_pos (by omega), if_pos (by omega), if_pos (by omega),
    hg 0 (by omega), hg 1 (by omega), hg 2 (by omega)]
  ring

theorem decode_replicate_zero :
    decodeWithMajorityVote (List.replicate (64 * 3) (0 : ℝ)) 64 =
      (List.replicate 64 0, 1) := by
  rw [decodeWithMajorityVote, Prod.mk.injEq]
  constructor
  · rw [List.map_congr_left fun i hi => by
      rw [decodeAvg_replicate 0 i (List.mem_range.mp hi)]]
    simp
  · rw [List.map_congr_left fun i hi => by
      rw [decodeAvg_replicate 0 i (List.mem_range.mp hi)]]
    norm_num
    rw [abs_of_nonneg (by norm_num : (0 : ℝ) ≤ 1 / 2)]
    norm_num

theorem decode_replicate_one :
    decodeWithMajorityVote (List.replicate (64 * 3) (1 : ℝ)) 64 =
      (List.replicate 64 1, 1) := by
  rw [decodeWithMajorityVote, Prod.mk.injEq]
  constructor
  · rw [List.map_congr_left fun i hi => by
      rw [decodeAvg_replicate 1 i (List.mem_range.mp hi),
        if_pos (by norm_num : (1 : ℝ) / 2 < 1)]]
    simp
  · rw [List.map_congr_left fun i hi => by
      rw [decodeAvg_replicate 1 i (List.mem_range.mp hi)]]
    norm_num
    rw [abs_of_nonneg (by norm_num : (0 : ℝ) ≤ 1 / 2)]
    norm_num

/-- Claim C9 (amended): when the image is narrower than one block
(`width < 8`, hence `blocksX = 0` and `blockIdx % blocksX` is `NaN`),
every sampled block reads as all zeros, every DCT coefficient is 0 and
votes `-1`, every soft value is 0, and `extractWatermark` returns 64 zero
bits with confidence exactly 1. -/
theorem C9_amended (img : ImageData) (bits : List Nat)
    (hw : img.width < 8) (hlen : bits.length = 64) :
    extractWatermark img bits = (List.replicate 64 0, 1) := by
  have hbx : img.width / 8 = 0 := Nat.div_eq_of_lt hw
  simp only [extractWatermark, hbx, hlen, Nat.zero_mul]
  rw [createBlockAssignments_totalZero _ _ (by norm_num)]
  simp only
  rw [extractNoisy_const _ _ _ _ _ _ _ _ _ (-1) (by norm_num)
    (fun ai st' => extractSampleVote_blocksX_zero _ _ _ _ _ ai st')]
  rw [show ((-1 : ℝ) + 1) / 2 = 0 by norm_num]
  exact decode_replicate_zero

/-- Witness for C9 (amended) at a 4×12 all-black image. -/
theorem C9_amended_witness :
    extractWatermark ⟨4, 12, fun _ => 0⟩ (List.replicate 64 0) =
      (List.replicate 64 0, 1) :=
  C9_amended ⟨4, 12, fun _ => 0⟩ (List.replicate 64 0) (by norm_num) (by decide)

theorem luminance_imgCE (i : Nat) :
    extractLuminance imgCE.data i = if i = 0 then 255 else 0 := by
  rw [extractLuminance]
  by_cases h : i = 0
  · subst h
    rw [if_pos rfl]
    norm_num [imgCE]
  · rw [if_neg h]
    have e0 : imgCE.data (i * 4) = 0 := by
      show (if i * 4 < 3 then 255 else if (i * 4) % 4 = 3 then 255 else 0) = 0
      rw [if_neg (by omega), if_neg (by omega)]
    have e1 : imgCE.data (i * 4 + 1) = 0 := by
      show (if i * 4 + 1 < 3 then 255 else if (i * 4 + 1) % 4 = 3 then 255 else 0) = 0
      rw [if_neg (by omega), if_neg (by omega)]
    have e2 : imgCE.data (i * 4 + 2) = 0 := by
      show (if i * 4 + 2 < 3 then 255 else if (i * 4 + 2) % 4 = 3 then 255 else 0) = 0
      rw [if_neg (by omega), if_neg (by omega)]
    rw [e0, e1, e2]
    norm_num

theorem blockPixels_imgCE (r c : Nat) (hc : c < 8) :
    blockPixels (extractLuminance imgCE.data) 16 4 2 0 r c =
      if r = 0 ∧ c = 0 then 255 else 0 := by
  rw [blockPixels]
  rw [show jsMod 0 2 = some 0 from rfl, show jsFloorDiv 0 2 = some 0 from rfl]
  show (if 0 * 8 + c < 16 ∧ 0 * 8 + r < 4 then
      extractLuminance imgCE.data ((0 * 8 + r) * 16 + (0 * 8 + c)) else 0) = _
  by_cases hr : r < 4
  · rw [if_pos ⟨by omega, by omega⟩, luminance_imgCE]
    by_cases h0 : r = 0 ∧ c = 0
    · rw [if_pos (by omega), if_pos h0]
    · rw [if_neg (by omega), if_neg h0]
  · rw [if_neg (by omega), if_neg (by omega)]

theorem sum_blockCE_inner (yy u : Nat) (hyy : yy < 8) :
    ∑ x ∈ Finset.range 8,
        blockPixels (extractLuminance imgCE.data) 16 4 2 0 x yy * cosTable x u =
      if yy = 0 then 255 * cosTable 0 u else 0 := by
  rw [Finset.sum_eq_single 0]
  · rw [blockPixels_imgCE 0 yy hyy]
    by_cases h0 : yy = 0
    · rw [if_pos ⟨rfl, h0⟩, if_pos h0]
    · rw [if_neg (fun hh => h0 hh.2), if_neg h0]
      ring
  · intro x _ hx
    rw [blockPixels_imgCE x yy hyy, if_neg (fun hh => hx hh.1)]
    ring
  · intro h0
    exact absurd (Finset.mem_range.mpr (by norm_num)) h0

theorem cosTable_first_pos (u : Nat) (hu : u ≤ 4) : 0 < cosTable 0 u := by
  rw [cosTable]
  apply Real.cos_pos_of_mem_Ioo
  have hπ := Real.pi_pos
  have hcast : ((u : ℝ)) ≤ 4 := by exact_mod_cast hu
  have hcast0 : (0 : ℝ) ≤ (u : ℝ) := Nat.cast_nonneg u
  constructor
  · show -(Real.pi / 2) < (2 * (0 : ℕ) + 1) * (u : ℝ) * Real.pi / 16
    push_cast
    nlinarith
  · show (2 * (0 : ℕ) + 1) * (u : ℝ) * Real.pi / 16 < Real.pi / 2
    push_cast
    nlinarith

theorem dctC_pos (u : Nat) : 0 < dctC u := by
  rw [dctC]
  split
  · positivity
  · norm_num

theorem dct2d_blockCE_pos (u v : Nat) (hu : u ≤ 4) (hv : v ≤ 4) :
    0 < dct2d (blockPixels (extractLuminance imgCE.data) 16 4 2 0) u v := by
  show 0 < dctPass (fun yy =>
    dctPass (fun x => blockPixels (extractLuminance imgCE.data) 16 4 2 0 x yy) u) v
  rw [dctPass]
  have hterm : ∀ yy ∈ Finset.range 8,
      dctPass (fun x => blockPixels (extractLuminance imgCE.data) 16 4 2 0 x yy) u *
          cosTable yy v =
        if yy = 0 then 255 * cosTable 0 u * dctC u * 0.5 * cosTable 0 v else 0 := by
    intro yy hyym
    rw [dctPass, sum_blockCE_inner yy u (Finset.mem_range.mp hyym)]
    by_cases h0 : yy = 0
    · subst h0
      rw [if_pos rfl, if_pos rfl]
    · rw [if_neg h0, if_neg h0]
      ring
  rw [Finset.sum_congr rfl hterm,
    Finset.sum_ite_eq' (Finset.range 8) 0
      (fun _ => 255 * cosTable 0 u * dctC u * 0.5 * cosTable 0 v),
    if_pos (by norm_num : 0 ∈ Finset.range 8)]
  have h1 := cosTable_first_pos u hu
  have h2 := cosTable_first_pos v hv
  have h3 := dctC_pos u
  have h4 := dctC_pos v
  positivity

theorem mid_freq_le4 (k : Nat) :
    (MID_FREQ_COEFFS.getD k (0, 0)).1 ≤ 4 ∧ (MID_FREQ_COEFFS.getD k (0, 0)).2 ≤ 4 := by
  by_cases hk : k < 15
  · interval_cases k <;> decide
  · rw [List.getD_eq_default _ _ (by rw [show MID_FREQ_COEFFS.length = 15 from rfl]; omega)]
    decide

theorem extractSampleVote_imgCE (ai : Nat) (st : PrngState) :
    (extractSampleVote (extractLuminance imgCE.data) 16 4 2 0 none ai st).1 = 1 := by
  rw [extractSampleVote]
  have hdraw1 : (drawPair 0 none ai st).1.1 = 0 := by
    rw [drawPair]
    simp only [prngNextInt, prngNext]
    norm_num
  simp only [hdraw1]
  rw [if_pos (dct2d_blockCE_pos _ _ (mid_freq_le4 _).1 (mid_freq_le4 _).2)]

/-- Claim C9: false as stated. The claim covers every image with width or
height below 8, but when `width ≥ 8` and `height < 8` the guard indices
`bx`, `by` are ordinary numbers (`blocksX ≥ 1`, no `NaN`), so the sampled
block reads real pixels from the partial bottom strip. On the 16×4 image
whose only bright pixel is at (0,0), every mid-frequency DCT coefficient
of block 0 is positive, every vote is `+1`, and the extractor returns 64
one-bits (confidence 1), not 64 zero-bits. -/
theorem C9_counterexample :
    imgCE.height < 8 ∧
    extractWatermark imgCE (List.replicate 64 0) = (List.replicate 64 1, 1) ∧
    (List.replicate 64 1 : List Nat) ≠ List.replicate 64 0 := by
  refine ⟨by norm_num [imgCE], ?_, by decide⟩
  simp only [extractWatermark, show imgCE.width = 16 from rfl,
    show imgCE.height = 4 from rfl, List.length_replicate,
    show (16 : Nat) / 8 = 2 from rfl, show (4 : Nat) / 8 = 0 from rfl,
    show (2 : Nat) * 0 = 0 from rfl]
  rw [createBlockAssignments_totalZero _ _ (by norm_num)]
  simp only
  rw [extractNoisy_const _ _ _ _ _ _ _ _ _ 1 (by norm_num)
    (fun ai st' => extractSampleVote_imgCE ai st')]
  rw [show ((1 : ℝ) + 1) / 2 = 1 by norm_num]
  exact decode_replicate_one

/-- Claim C7: for every 8×8 block with entries in `[0, 255]`, the forward
DCT followed by the inverse DCT reproduces every entry within tolerance
1.0; over real arithmetic the composition is exactly the identity (the
orthogonality `Σ_u C(u)²·cos((2t+1)uπ/16)·cos((2x+1)uπ/16) = 4·δ(t,x)`
makes each separable pass invertible). -/
theorem C7_dct_roundtrip (B : Nat → Nat → ℝ)
    (hB : ∀ i < 8, ∀ j < 8, 0 ≤ B i j ∧ B i j ≤ 255)
    (x y : Nat) (hx : x < 8) (hy : y < 8) :
    idct2d (dct2d B) x y = B x y ∧ |idct2d (dct2d B) x y - B x y| ≤ 1 := by
  have h := idct2d_dct2d B x y hx hy
  refine ⟨h, ?_⟩
  rw [h]
  simp

/-- Witness for C7 at the constant gray block (every entry 128). -/
theorem C7_witness :
    idct2d (dct2d fun _ _ => (128 : ℝ)) 0 0 = 128 ∧
      |idct2d (dct2d fun _ _ => (128 : ℝ)) 0 0 - 128| ≤ 1 :=
  C7_dct_roundtrip (fun _ _ => (128 : ℝ))
    (fun _ _ _ _ => ⟨by norm_num, by norm_num⟩) 0 0 (by norm_num) (by norm_num)

/-- Witness for C5 (amended) at `S = 1`, `bits = [1, 1]`, `c = -2`. -/
theorem C5_witness :
    (majorityBit [1, 1] = 1 ↔ 2 * sumBits [1, 1] > ([1, 1] : List Nat).length) ∧
    embedCoeffWrite 1 [1, 1] (-2) =
      (if 2 * sumBits [1, 1] > ([1, 1] : List Nat).length then |(-2 : ℝ)| + 1
       else -(|(-2 : ℝ)| + 1)) ∧
    (0 < embedCoeffWrite 1 [1, 1] (-2) ↔
      2 * sumBits [1, 1] > ([1, 1] : List Nat).length) :=
  C5_amended 1 [1, 1] (-2) (by norm_num) (by decide)
